import Mathlib

/-!
Shallow embedding of the fekeu ingestion pipeline: the OCR amount parser
(`ParseAmountFromMatch`), the plausibility filter (`isPlausibleAmount`),
the candidate scorer (`BestAmountFromMatches`), the reconciler chooser
(`chooseBestAmount`), the standalone zero-block inference
(`inferStandaloneZeroAmount`) and the per-file reconciliation step
(`processSingleFile`), together with theorems settling the frozen claims.

Strings are modelled as Lean `String`/`List Char`; Go `int64` values are
modelled as `Nat` (all amounts produced by parsing are non-negative) with
the `strconv.ParseInt` range bound made explicit, and as `Int` with an
explicit wrap where signed 64-bit overflow is reachable.
-/

set_option autoImplicit false

namespace Fekeu

/-- A decimal digit, as in the Go comparisons `r >= '0' && r <= '9'`. -/
def isDigitC (c : Char) : Bool := 48 ≤ c.toNat && c.toNat ≤ 57

/-- ASCII whitespace, the relevant fragment of `unicode.IsSpace` used by
`strings.TrimSpace` and `strings.Fields`. -/
def isSpaceGo (c : Char) : Bool :=
  c = ' ' || c = '\t' || c = '\n' || c = Char.ofNat 11 || c = Char.ofNat 12 || c = '\r'

/-- `strings.Map` keeping decimal digits: the `onlyDigits` helper of the
ocr package. -/
def onlyDigits (l : List Char) : List Char := l.filter isDigitC

/-- `strings.ToLower` on one character (ASCII fragment). -/
def toLowerGo (c : Char) : Char :=
  if 65 ≤ c.toNat && c.toNat ≤ 90 then Char.ofNat (c.toNat + 32) else c

/-- `strings.ToLower` (ASCII fragment). -/
def toLowerL (l : List Char) : List Char := l.map toLowerGo

/-- `strings.TrimSpace`. -/
def trimSpace (l : List Char) : List Char :=
  ((l.dropWhile isSpaceGo).reverse.dropWhile isSpaceGo).reverse

/-- `pat` is a leading segment of `l` (helper for substring search). -/
def leadsWith : List Char → List Char → Bool
  | [], _ => true
  | _ :: _, [] => false
  | p :: ps, c :: cs => p = c && leadsWith ps cs

/-- `strings.Contains l pat` for character lists. -/
def containsSub (pat : List Char) : List Char → Bool
  | [] => leadsWith pat []
  | c :: rest => leadsWith pat (c :: rest) || containsSub pat rest

/-- `strings.HasSuffix l suf` for character lists. -/
def endsWithL (l suf : List Char) : Bool := leadsWith suf.reverse l.reverse

/-- Go byte-wise lexicographic `<` on strings (ASCII fragment). -/
def lexLt : List Char → List Char → Bool
  | [], [] => false
  | [], _ :: _ => true
  | _ :: _, [] => false
  | a :: as, b :: bs => if a = b then lexLt as bs else decide (a.toNat < b.toNat)

/-- Accumulator form of decimal-digit evaluation, as `strconv.ParseInt`
consumes its input left to right. -/
def natFromDigitsAux (acc : Nat) : List Char → Nat
  | [] => acc
  | c :: rest => natFromDigitsAux (acc * 10 + (c.toNat - 48)) rest

/-- Numeric value of a decimal digit string. -/
def natFromDigits (l : List Char) : Nat := natFromDigitsAux 0 l

/-- Largest `int64` value, the range bound of `strconv.ParseInt(s, 10, 64)`. -/
def int64Max : Nat := 9223372036854775807

/-- `strconv.ParseInt(digits, 10, 64)` on a digit-only string: fails on an
empty string, a non-digit character, or a value beyond the int64 range. -/
def parseInt64 (l : List Char) : Option Nat :=
  if l = [] then none
  else if l.all isDigitC then
    if natFromDigits l ≤ int64Max then some (natFromDigits l) else none
  else none

/-- The regular expression found-tail test of the cents regex
`[.,]\d{2}$`: the string ends in a separator followed by exactly two
digits. -/
def centsMatch (l : List Char) : Bool :=
  match l.reverse with
  | d2 :: d1 :: sep :: _ => isDigitC d2 && isDigitC d1 && (sep = '.' || sep = ',')
  | _ => false

/-- `strings.LastIndex` restricted to a one-character needle (−1 when the
character does not occur), accumulator form. -/
def lastIdxAux (c : Char) : List Char → Int → Int → Int
  | [], _, best => best
  | x :: xs, i, best => lastIdxAux c xs (i + 1) (if x = c then i else best)

/-- `strings.LastIndex(l, c)` for a single character `c`. -/
def lastIdx (l : List Char) (c : Char) : Int := lastIdxAux c l 0 (-1)

/-- `ocr.ParseAmountFromMatch`: trim, strip a trailing two-decimal cents
tail (the later of the last `.` and last `,` is the decimal separator and
only digits before it count), keep remaining digits, parse as int64.
`none` models the error returns. -/
def ParseAmountFromMatch (found : String) : Option Nat :=
  let foundTrim := trimSpace found.data
  if foundTrim = [] then none
  else
    let digits :=
      if centsMatch foundTrim then
        let lastDot := lastIdx foundTrim '.'
        let lastComma := lastIdx foundTrim ','
        if lastDot < lastComma then onlyDigits (foundTrim.take lastComma.toNat)
        else if lastComma < lastDot then onlyDigits (foundTrim.take lastDot.toNat)
        else onlyDigits foundTrim
      else onlyDigits foundTrim
    if digits = [] then none
    else parseInt64 digits

/-- The `"rp"` marker. -/
def rpL : List Char := ['r', 'p']

/-- The `"idr"` marker. -/
def idrL : List Char := ['i', 'd', 'r']

/-- `ocr.isPlausibleAmount` (plausibility.go): currency markers accepted
outright; separator-bearing strings need three digits and a non-zero lead;
pure digit strings are checked for leading zero, length bounds and, from
five digits on, a `000`/`500` suffix. -/
def isPlausibleAmount (s : String) : Bool :=
  let t := trimSpace s.data
  if t = [] then false
  else
    let low := toLowerL t
    if containsSub rpL low || containsSub idrL low then true
    else if decide ('.' ∈ t) || decide (',' ∈ t) then
      match onlyDigits t with
      | [] => false
      | c :: rest => decide (3 ≤ (c :: rest).length) && decide (c.toNat ≠ 48)
    else
      match onlyDigits t with
      | [] => false
      | c :: rest =>
        let d := c :: rest
        if c.toNat = 48 then false
        else if 7 < d.length then false
        else if 5 ≤ d.length && !(endsWithL d ['0', '0', '0'] || endsWithL d ['5', '0', '0']) then false
        else if d.length < 2 then false
        else true

/-- The `"total"` context marker. -/
def totalL : List Char := ['t', 'o', 't', 'a', 'l']

/-- The additive score of `BestAmountFromMatches` (scoring.go `scoreFor`):
+10 currency marker, +8 TOTAL context, +5 separator, +3 two-zero cents
suffix, +1 for four or more digits. The parsed amount is passed but not
used, as in the source. -/
def scoreFor (raw : String) (_amt : Nat) : Nat :=
  let low := toLowerL raw.data
  (if containsSub rpL low || containsSub idrL low then 10 else 0) +
  (if containsSub totalL low then 8 else 0) +
  (if decide ('.' ∈ raw.data) || decide (',' ∈ raw.data) then 5 else 0) +
  (if endsWithL raw.data [',', '0', '0'] || endsWithL raw.data ['.', '0', '0'] then 3 else 0) +
  (if 4 ≤ (onlyDigits raw.data).length then 1 else 0)

/-- A scored candidate of `BestAmountFromMatches`. -/
structure Cand where
  amt : Nat
  raw : String
  score : Nat
deriving DecidableEq

/-- The replacement test of the `BestAmountFromMatches` selection loop:
higher score, then larger amount, then longer raw, then lexicographically
smaller raw. -/
def betterThan (c best : Cand) : Bool :=
  if best.score < c.score then true
  else if c.score = best.score then
    if best.amt < c.amt then true
    else if c.amt = best.amt then
      if best.raw.data.length < c.raw.data.length then true
      else if c.raw.data.length = best.raw.data.length then lexLt c.raw.data best.raw.data
      else false
    else false
  else false

/-- The selection loop of `BestAmountFromMatches` over the candidate
list. -/
def pickBest : Cand → List Cand → Cand
  | best, [] => best
  | best, c :: cs => pickBest (if betterThan c best then c else best) cs

/-- Candidate construction of `BestAmountFromMatches`: parse one match
and keep it, scored, when the parse is positive. -/
def candOf (m : String) : Option Cand :=
  match ParseAmountFromMatch m with
  | none => none
  | some amt => if amt = 0 then none else some ⟨amt, m, scoreFor m amt⟩

/-- `ocr.BestAmountFromMatches`: parse every match, keep positive parses,
score them, and select by score with the amount/length/lexicographic
tiebreaks. `none` models the `ok = false` return. -/
def BestAmountFromMatches (ms : List String) : Option (Nat × String) :=
  match ms.filterMap candOf with
  | [] => none
  | c :: cs => some ((pickBest c cs).amt, (pickBest c cs).raw)

/-- The cents scaling of `chooseBestAmount` (process_keu.go): divide by
100 when the raw string matches the cents regex and the value is a
multiple of 100. -/
def centsScale (raw : List Char) (amt : Nat) : Nat :=
  if centsMatch raw ∧ amt % 100 = 0 then amt / 100 else amt

/-- The loop body shared by the three passes of `chooseBestAmount`: trim,
apply the pass filter, parse, skip non-positive parses, cents-scale, skip
values below 1000, keep the numerically largest. -/
def passStep (keep : List Char → Bool) (best : Nat × String) (m : String) : Nat × String :=
  let raw := trimSpace m.data
  if keep raw then
    match ParseAmountFromMatch (String.mk raw) with
    | none => best
    | some amt =>
      if amt = 0 then best
      else
        let amtS := centsScale raw amt
        if amtS < 1000 then best
        else if best.1 < amtS then (amtS, String.mk raw) else best
  else best

/-- One pass of `chooseBestAmount` over the match list. -/
def choosePass (keep : List Char → Bool) (best : Nat × String) (ms : List String) : Nat × String :=
  ms.foldl (passStep keep) best

/-- First-pass filter of `chooseBestAmount`: currency hinted. -/
def hintedCurrency (raw : List Char) : Bool :=
  containsSub rpL (toLowerL raw) || containsSub idrL (toLowerL raw)

/-- Second-pass filter of `chooseBestAmount`: grouping separators. -/
def hasSeparator (raw : List Char) : Bool :=
  decide ('.' ∈ raw) || decide (',' ∈ raw)

/-- `chooseBestAmount` (process_keu.go lines 172-238): three passes over
the matches — currency hinted, then separator-bearing, then any — each
returning early once a best value above zero is known. -/
def chooseBestAmount (ms : List String) : Nat × String :=
  let b1 := choosePass hintedCurrency (0, "") ms
  if 0 < b1.1 then b1
  else
    let b2 := choosePass hasSeparator b1 ms
    if 0 < b2.1 then b2
    else choosePass (fun _ => true) b2 ms

/-- `strings.Fields`: split on whitespace runs, accumulator form. -/
def fieldsAux : List Char → List Char → List (List Char)
  | [], acc => if acc = [] then [] else [acc.reverse]
  | c :: rest, acc =>
    if isSpaceGo c then
      if acc = [] then fieldsAux rest [] else acc.reverse :: fieldsAux rest []
    else fieldsAux rest (c :: acc)

/-- `strings.Join(strings.Fields(l), " ")`: collapse whitespace runs to
single spaces and trim the ends. -/
def normalizeSpaces (l : List Char) : List Char :=
  List.intercalate [' '] (fieldsAux l [])

/-- The character class `[0\s.,idrl]` of `inferStandaloneZeroAmount`. -/
def zeroTailChar (c : Char) : Bool :=
  c = '0' || isSpaceGo c || c = '.' || c = ',' || c = 'i' || c = 'd' || c = 'r' || c = 'l'

/-- The leading class `[1-9]` of the zero-block regexes. -/
def leadDigit (c : Char) : Bool := 49 ≤ c.toNat && c.toNat ≤ 57

/-- Length of the longest `[0\s.,idrl]` run at the head of `l`. -/
def runLen (l : List Char) : Nat := (l.takeWhile zeroTailChar).length

/-- Greedy backtracking over the `{4,12}` repetition of
`([1-9])([0\s.,idrl]{4,12})(?:\s|$)`: try the tail length `n` first and
shrink until the trailing boundary (a whitespace character, consumed, or
the end of the text) matches; lengths below 4 fail. Returns the captured
tail and the remaining text after the match. -/
def tryTail (rest : List Char) : Nat → Option (List Char × List Char)
  | 0 => none
  | n + 1 =>
    if n + 1 < 4 then none
    else
      match rest.drop (n + 1) with
      | [] => some (rest.take (n + 1), [])
      | c :: rem =>
        if isSpaceGo c then some (rest.take (n + 1), rem) else tryTail rest n

/-- The `([1-9])([0\s.,idrl]{4,12})(?:\s|$)` part of the pattern at the
current position: a lead digit followed by a greedy tail. Returns the
captured lead, the captured tail and the remaining text. -/
def tryLead (l : List Char) : Option (Char × List Char × List Char) :=
  match l with
  | c :: rest =>
    if leadDigit c then (tryTail rest (min (runLen rest) 12)).map (fun p => (c, p.1, p.2))
    else none
  | [] => none

/-- One attempt of `(?:^|\s)([1-9])([0\s.,idrl]{4,12})(?:\s|$)` at the
current position: the `^` alternative applies only at the very start of
the text, the `\s` alternative consumes one whitespace character. -/
def tryHere (l : List Char) (atStart : Bool) : Option (Char × List Char × List Char) :=
  match (if atStart then tryLead l else none) with
  | some r => some r
  | none =>
    match l with
    | sp :: rest => if isSpaceGo sp then tryLead rest else none
    | [] => none

/-- `regexp.FindAllStringSubmatch` for the standalone zero-block pattern:
leftmost-first matches, scanning resumes after each (non-empty) match.
The fuel argument bounds the scan by the text length. -/
def scanText : Nat → List Char → Bool → List (Char × List Char)
  | 0, _, _ => []
  | fuel + 1, l, atStart =>
    match tryHere l atStart, l with
    | some r, _ => (r.1, r.2.1) :: scanText fuel r.2.2 false
    | none, [] => []
    | none, _ :: rest => scanText fuel rest false

/-- Worker for `formatGrouping` on the reversed digit string: emit a dot
each time a group of three digits has been taken and digits remain. -/
def groupRev : List Char → Nat → List Char
  | [], _ => []
  | c :: rest, 0 => '.' :: c :: groupRev rest 2
  | c :: rest, k + 1 => c :: groupRev rest k

/-- `ocr.formatGrouping`: dot separators every three digits from the
right (the source builds the three-digit groups right to left and joins
them with dots). -/
def formatGrouping (ds : List Char) : List Char := (groupRev ds.reverse 3).reverse

/-- Number of `'0'` characters in the captured tail
(`strings.Count(tail, "0")`). -/
def zeroCount (tail : List Char) : Nat := tail.count '0'

/-- The digit string synthesized from one zero-block match: the lead digit
followed by the zero count clamped to six zeros. -/
def synthDigits (m : Char × List Char) : List Char :=
  m.1 :: List.replicate (if 6 < zeroCount m.2 then 6 else zeroCount m.2) '0'

/-- The raw string logged for one zero-block match. -/
def synthRaw (m : Char × List Char) : String :=
  "Rp" ++ String.mk (formatGrouping (synthDigits m)) ++ "?"

/-- The per-match body of the `inferStandaloneZeroAmount` loop: skip
matches with fewer than four zeros, synthesize the digit string, parse it,
require a `000` suffix, and keep the largest amount. -/
def standaloneStep (best : Nat × String) (m : Char × List Char) : Nat × String :=
  if zeroCount m.2 < 4 then best
  else
    match parseInt64 (synthDigits m) with
    | none => best
    | some amt =>
      if amt = 0 then best
      else if !endsWithL (synthDigits m) ['0', '0', '0'] then best
      else if best.1 < amt then (amt, synthRaw m) else best

/-- The list of `(lead, tail)` captures of
`(?:^|\s)([1-9])([0\s.,idrl]{4,12})(?:\s|$)` over the lowercased,
whitespace-normalized text. -/
def standaloneMatches (text : String) : List (Char × List Char) :=
  let norm := normalizeSpaces (toLowerL text.data)
  scanText (norm.length + 1) norm true

/-- `ocr.inferStandaloneZeroAmount` (inference.go): lowercase and
whitespace-normalize the text, find all `(?:^|\s)([1-9])([0\s.,idrl]{4,12})(?:\s|$)`
matches, and fold the zero-block selection over them. -/
def inferStandaloneZeroAmount (text : String) : Nat × String :=
  let r := (standaloneMatches text).foldl standaloneStep (0, "")
  if 0 < r.1 then r else (0, "")

/-- `models.Upload`, restricted to the fields the reconciler reads or
writes (id/paths/timestamps omitted: they never influence the modelled
control flow). `keuanganId` is the nullable `KeuanganID` record link. -/
structure Upload where
  failed : Bool
  failedReason : String
  keuanganId : Option Nat
  contentType : String
deriving DecidableEq

/-- Where the watched file ends up after one `processSingleFile` step:
left in place, moved by `moveToProcessed`, or moved by `moveToFailed`. -/
inductive FileDest
  | keu
  | processed
  | failedDir
deriving DecidableEq

/-- The terminal branch taken by `processSingleFile`. -/
inductive Outcome
  | skipRecorded
  | skipLinked
  | skipAdminCreate
  | createError
  | ocrError
  | markedFailed (reason : String)
  | skipRecheck
  | noAmount
  | skipUnknownOwner
  | skipAdminOwner
  | recordError
  | success (amount : Nat) (recId : Nat)
deriving DecidableEq

/-- Result of one `processSingleFile` step: the final state of the Upload
row the step operated on (`none` when no row was obtained), the file
destination, the branch taken, and the Amount stored in the Record table
when the record-creation code runs. -/
structure ProcResult where
  upload : Option Upload
  dest : FileDest
  outcome : Outcome
  recordAmount : Option Int
deriving DecidableEq

/-- Result of the `db.Create(&cat)` attempt: success with the new record
id, or a unique-constraint conflict whose follow-up fetch yields the
existing record (id, amount) or fails. -/
inductive RecCreate
  | ok (recId : Nat)
  | conflict (existing : Option (Nat × Int))
deriving DecidableEq

/-- Oracle for the external effects of one `processSingleFile` call: each
field records what the corresponding database, OCR or filesystem call
would return. -/
structure ProcEnv where
  /-- file name being processed -/
  name : String
  /-- `ps.getCat(name)` at entry -/
  catAtEntry : Bool
  /-- cache lookup plus the 3 × 150 ms retry: the Upload row found, if any -/
  uploadFound : Option Upload
  /-- `profile.UserID` of the dispatcher profile -/
  profileUserId : Nat
  /-- `db.Create` of a fresh Upload, or the race re-fetch: the row obtained
  (`none` models the error returns) -/
  created : Option Upload
  /-- `ocr.FindAllMatches`: matches and `isLikelyNonAmount` (`none` = error) -/
  ocr : Option (List String × Bool)
  /-- `ocr.ExtractAmountFromImage` fallback: `some amt` when it returns
  without error (0 models "found nothing") -/
  fullImage : Option Nat
  /-- `ps.getCat(name)` at the re-check -/
  catAtRecheck : Bool
  /-- the Upload row a retry inside the owner loop would fetch -/
  raceFetch : Option Upload
  /-- `Profile.UserID` of the Upload owner as the owner loop would resolve
  it (0 when the profile lookup fails) -/
  ownerOf : Nat
  /-- result of the Record creation attempt -/
  recordCreate : RecCreate

/-- `filepath.Ext`: the suffix starting at the final dot, or empty. -/
def extOf (name : String) : List Char :=
  let i := lastIdx name.data '.'
  if i < 0 then [] else name.data.drop i.toNat

/-- The `extMime` table of process_keu.go. -/
def mimeFromExt (name : String) : String :=
  let e := toLowerL (extOf name)
  if e = ".jpg".data then "image/jpeg"
  else if e = ".jpeg".data then "image/jpeg"
  else if e = ".png".data then "image/png"
  else if e = ".gif".data then "image/gif"
  else if e = ".webp".data then "image/webp"
  else if e = ".txt".data then "text/plain"
  else ""

/-- Wrap an integer into the signed 64-bit range, as Go arithmetic on
`int64` does. -/
def int64Wrap (x : Int) : Int := (x + 2 ^ 63) % 2 ^ 64 - 2 ^ 63

/-- The unique-conflict update rule of the Record creation step
(process_keu.go lines 577-591): the existing Amount is replaced by the
newly detected one exactly when `amt > existing && amt >= existing*2`,
the doubling being 64-bit (wrapping) multiplication. Returns the Amount
the existing Record holds afterwards. -/
def resolveRecordConflict (amt existingAmt : Int) : Int :=
  if existingAmt < amt ∧ int64Wrap (existingAmt * 2) ≤ amt then amt else existingAmt

/-- The owner-resolution loop of process_keu.go lines 538-556. The Go
loop guard is `i < 3 && up == nil` and `ownerUserID` starts at 0, so the
body — which re-fetches the Upload while it is nil and reads the owning
Profile once it is present — runs only while the Upload pointer is nil. -/
def ownerLoop : Nat → Option Upload → Option Upload → Nat → Nat
  | 0, _, _, _ => 0
  | fuel + 1, up, fetch, ownerOf =>
    match up with
    | some _ => 0
    | none =>
      match fetch with
      | some _ => ownerOf
      | none => ownerLoop fuel none fetch ownerOf

/-- Failure reason for images whose text looks like a logo. -/
def reasonNotRecognized : String := "File tidak dikenali, gunakan file lain!"

/-- Failure reason when no plausible amount is found. -/
def reasonNoAmount : String := "Nominal tidak ditemukan, gunakan file lain"

/-- The tail of `processSingleFile` once an amount `amt` has been chosen:
re-check the record cache, guard `amt <= 0`, resolve the owner, refuse
the admin owner, create or fetch the Record, and link the Upload. -/
def afterAmount (env : ProcEnv) (u1 : Upload) (amt : Nat) : ProcResult :=
  if env.catAtRecheck then ⟨some u1, .keu, .skipRecheck, none⟩
  else if amt = 0 then ⟨some u1, .keu, .noAmount, none⟩
  else
    let owner := ownerLoop 3 (some u1) env.raceFetch env.ownerOf
    if owner = 0 then ⟨some u1, .processed, .skipUnknownOwner, none⟩
    else if owner = 1 then ⟨some u1, .processed, .skipAdminOwner, none⟩
    else
      match env.recordCreate with
      | .ok recId =>
        let u2 := if u1.keuanganId = none then { u1 with keuanganId := some recId } else u1
        ⟨some u2, .processed, .success amt recId, some (amt : Int)⟩
      | .conflict none => ⟨some u1, .keu, .recordError, none⟩
      | .conflict (some (recId, exAmt)) =>
        let u2 := if u1.keuanganId = none then { u1 with keuanganId := some recId } else u1
        ⟨some u2, .processed, .success amt recId, some (resolveRecordConflict (amt : Int) exAmt)⟩

/-- The cheap content-type fill of process_keu.go lines 478-484: set the
extension-derived MIME type when the Upload has none and the extension is
known. -/
def fillContentType (env : ProcEnv) (u0 : Upload) : Upload :=
  if u0.contentType = "" ∧ mimeFromExt env.name ≠ "" then
    { u0 with contentType := mimeFromExt env.name }
  else u0

/-- The body of `processSingleFile` once an Upload row `u0` has been
obtained: fill the content type, run `FindAllMatches`, classify empty
matches, choose the best amount with the full-image fallback, and
continue with `afterAmount`. -/
def afterObtain (env : ProcEnv) (u0 : Upload) : ProcResult :=
  let u1 := fillContentType env u0
  match env.ocr with
  | none => ⟨some u1, .keu, .ocrError, none⟩
  | some (ms, isLikelyNonAmount) =>
    if ms = [] then
      let reason := if isLikelyNonAmount then reasonNotRecognized else reasonNoAmount
      ⟨some { u1 with failed := true, failedReason := reason }, .failedDir, .markedFailed reason, none⟩
    else
      let b := chooseBestAmount ms
      if 0 < b.1 then afterAmount env u1 b.1
      else
        match env.fullImage with
        | some fAmt =>
          if 0 < fAmt then afterAmount env u1 fAmt
          else
            ⟨some { u1 with failed := true, failedReason := reasonNoAmount }, .failedDir,
              .markedFailed reasonNoAmount, none⟩
        | none =>
          ⟨some { u1 with failed := true, failedReason := reasonNoAmount }, .failedDir,
            .markedFailed reasonNoAmount, none⟩

/-- `processSingleFile` (process_keu.go lines 408-604) as a function of
the effect oracle: skip when a record is cached or the Upload is already
linked, create the Upload when missing (refusing the admin profile),
then hand over to `afterObtain`. -/
def processSingleFile (env : ProcEnv) : ProcResult :=
  if env.catAtEntry then ⟨env.uploadFound, .keu, .skipRecorded, none⟩
  else
    match env.uploadFound with
    | some u0 =>
      if u0.keuanganId ≠ none then ⟨some u0, .keu, .skipLinked, none⟩
      else afterObtain env u0
    | none =>
      if env.profileUserId = 1 then ⟨none, .processed, .skipAdminCreate, none⟩
      else
        match env.created with
        | none => ⟨none, .keu, .createError, none⟩
        | some u0 => afterObtain env u0

/-- The Upload row a `processSingleFile` call operates on: the row found
by lookup, or the row obtained by the create-or-race-fetch when the
lookup found nothing and the profile is not the admin profile. -/
def entryUpload (env : ProcEnv) : Option Upload :=
  match env.uploadFound with
  | some u => some u
  | none => if env.profileUserId = 1 then none else env.created

/-- The step reaches the OCR stage operating on `u0`: no cached record,
and `u0` is the unlinked row found by lookup or the row obtained by
creation. -/
def reachesOCR (env : ProcEnv) (u0 : Upload) : Prop :=
  env.catAtEntry = false ∧
  ((env.uploadFound = some u0 ∧ u0.keuanganId = none) ∨
    (env.uploadFound = none ∧ env.profileUserId ≠ 1 ∧ env.created = some u0))

/-- A freshly created, unprocessed Upload row. -/
def freshUpload : Upload := ⟨false, "", none, "image/png"⟩

/-- An effect oracle for a run over an existing fresh Upload with the
given OCR results; owner resolution and record creation behave as for a
regular user profile. -/
def mkEnv (ocrRes : Option (List String × Bool)) (fullImage : Option Nat) : ProcEnv :=
  { name := "receipt.png"
    catAtEntry := false
    uploadFound := some freshUpload
    profileUserId := 7
    created := none
    ocr := ocrRes
    fullImage := fullImage
    catAtRecheck := false
    raceFetch := none
    ownerOf := 7
    recordCreate := .ok 1 }

/-! ### Supporting lemmas -/

theorem passStep_min (keep : List Char → Bool) (best : Nat × String) (m : String)
    (h : best.1 = 0 ∨ 1000 ≤ best.1) :
    (passStep keep best m).1 = 0 ∨ 1000 ≤ (passStep keep best m).1 := by
  unfold passStep
  dsimp only
  split
  · split
    · exact h
    · split
      · exact h
      · split
        · exact h
        · split
          · right
            omega
          · exact h
  · exact h

theorem choosePass_min (keep : List Char → Bool) (ms : List String) (best : Nat × String)
    (h : best.1 = 0 ∨ 1000 ≤ best.1) :
    (choosePass keep best ms).1 = 0 ∨ 1000 ≤ (choosePass keep best ms).1 := by
  induction ms generalizing best with
  | nil => exact h
  | cons m ms ih => exact ih (passStep keep best m) (passStep_min keep best m h)

theorem pickBest_mem (cs : List Cand) (best : Cand) : pickBest best cs ∈ best :: cs := by
  induction cs generalizing best with
  | nil => exact List.mem_singleton.mpr rfl
  | cons c cs ih =>
    have h := ih (if betterThan c best then c else best)
    rcases List.mem_cons.mp h with h1 | h1
    · rw [pickBest, h1]
      split
      · exact List.mem_cons_of_mem _ (List.mem_cons_self _ _)
      · exact List.mem_cons_self _ _
    · rw [pickBest]
      exact List.mem_cons_of_mem _ (List.mem_cons_of_mem _ h1)

theorem candOf_spec (m : String) (c : Cand) (h : candOf m = some c) :
    c.raw = m ∧ ParseAmountFromMatch m = some c.amt ∧ 0 < c.amt := by
  unfold candOf at h
  cases hp : ParseAmountFromMatch m with
  | none => rw [hp] at h; exact absurd h (by simp)
  | some amt =>
    rw [hp] at h
    dsimp only at h
    by_cases hz : amt = 0
    · rw [if_pos hz] at h
      exact absurd h (by simp)
    · rw [if_neg hz] at h
      cases h
      exact ⟨rfl, rfl, Nat.pos_of_ne_zero hz⟩

/-! ### Claims -/

/-- Claim C4: `ParseAmountFromMatch` strips a trailing two-decimal cents
tail (the later of the last dot and last comma is the decimal separator,
and only digits before it count) and otherwise keeps all digits:
`Parse("10.000,00") = 10000`, `Parse("7,500.00") = 7500`,
`Parse("Rp 53.000") = 53000`, `Parse("1234") = 1234`. -/
theorem claim4_parse_examples :
    ParseAmountFromMatch "10.000,00" = some 10000 ∧
    ParseAmountFromMatch "7,500.00" = some 7500 ∧
    ParseAmountFromMatch "Rp 53.000" = some 53000 ∧
    ParseAmountFromMatch "1234" = some 1234 := by
  decide

/-- Claim C5: the candidate scorer `BestAmountFromMatches` selects by
highest additive score with the largest-amount / longest-raw /
lexicographic tiebreaks, so `["Rp50.000", "TOTAL Rp40.000"]` yields 40000
(the TOTAL boost, score 24 versus 16, beats the larger non-TOTAL value)
and `["50000", "Rp40.000"]` yields 40000 (the Rp marker, score 16 versus
1, beats bare digits). -/
theorem claim5_scorer_examples :
    BestAmountFromMatches ["Rp50.000", "TOTAL Rp40.000"] = some (40000, "TOTAL Rp40.000") ∧
    BestAmountFromMatches ["50000", "Rp40.000"] = some (40000, "Rp40.000") ∧
    scoreFor "TOTAL Rp40.000" 40000 = 24 ∧ scoreFor "Rp50.000" 50000 = 16 ∧
    scoreFor "Rp40.000" 40000 = 16 ∧ scoreFor "50000" 50000 = 1 := by
  decide

/-- Claim C8: whenever the scorer succeeds, the returned raw string is an
element of the input list and the returned amount is
`ParseAmountFromMatch` of that element (and is positive). -/
theorem claim8_scorer_sound (ms : List String) (a : Nat) (r : String)
    (h : BestAmountFromMatches ms = some (a, r)) :
    r ∈ ms ∧ ParseAmountFromMatch r = some a ∧ 0 < a := by
  unfold BestAmountFromMatches at h
  rcases hc : ms.filterMap candOf with _ | ⟨c, cs⟩
  · rw [hc] at h
    exact absurd h (by simp)
  · rw [hc] at h
    have hmem : pickBest c cs ∈ ms.filterMap candOf := by
      rw [hc]
      exact pickBest_mem cs c
    rcases List.mem_filterMap.mp hmem with ⟨m, hm, hcand⟩
    rcases candOf_spec m (pickBest c cs) hcand with ⟨hraw, hparse, hpos⟩
    cases h
    exact ⟨hraw ▸ hm, hraw ▸ hparse, hpos⟩

/-- Witness for claim C8 at the concrete list `["1234"]`. -/
theorem claim8_scorer_sound_witness :
    "1234" ∈ ["1234"] ∧ ParseAmountFromMatch "1234" = some 1234 ∧ 0 < 1234 :=
  claim8_scorer_sound ["1234"] 1234 "1234" (by decide)

/-- Claim C10: the reconciler chooser `chooseBestAmount` returns either 0
(no selection) or an amount of at least 1000: every pass skips candidates
whose cents-scaled parsed value is below 1000. -/
theorem claim10_choose_min (ms : List String) :
    (chooseBestAmount ms).1 = 0 ∨ 1000 ≤ (chooseBestAmount ms).1 := by
  unfold chooseBestAmount
  dsimp only
  have h1 := choosePass_min hintedCurrency ms (0, "") (Or.inl rfl)
  have h2 := choosePass_min hasSeparator ms (choosePass hintedCurrency (0, "") ms) h1
  have h3 := choosePass_min (fun _ => true) ms _ h2
  split
  · exact h1
  · split
    · exact h2
    · exact h3

theorem char_eq_of_toNat_eq (a b : Char) (h : a.toNat = b.toNat) : a = b :=
  Char.ext (UInt32.ext h)

theorem int64Wrap_id (x : Int) (h1 : -(2 ^ 63) ≤ x) (h2 : x < 2 ^ 63) : int64Wrap x = x := by
  unfold int64Wrap
  have e63 : ((2 : Int) ^ 63) = 9223372036854775808 := by norm_num
  have e64 : ((2 : Int) ^ 64) = 18446744073709551616 := by norm_num
  rw [e63] at h1 h2 ⊢
  rw [e64]
  rw [Int.emod_eq_of_lt (by omega) (by omega)]
  omega

/-- Claim C3 (amended): on a unique-constraint conflict the existing
Amount is overwritten by the new one iff the new amount is at least twice
the existing one — provided the existing Amount is positive and small
enough that the 64-bit doubling `existing.Amount*2` does not overflow
(`existing < 2^62`). -/
theorem claim3_conflict_rule (amt existing : Int) (h1 : 0 < existing)
    (h2 : existing < 2 ^ 62) :
    resolveRecordConflict amt existing = if 2 * existing ≤ amt then amt else existing := by
  unfold resolveRecordConflict
  have e62 : ((2 : Int) ^ 62) = 4611686018427387904 := by norm_num
  rw [e62] at h2
  rw [int64Wrap_id (existing * 2) (by norm_num; omega) (by norm_num; omega)]
  split_ifs with ha hb hb
  · rfl
  · exact absurd (by omega : 2 * existing ≤ amt) hb
  · exact absurd ⟨by omega, by omega⟩ ha
  · rfl

/-- Witness for claim C3 at existing Amount 20000: a new detection of
600000 overwrites, a new detection of 25000 does not. -/
theorem claim3_conflict_rule_witness :
    resolveRecordConflict 600000 20000 = 600000 ∧
    resolveRecordConflict 25000 20000 = 20000 := by
  constructor
  · rw [claim3_conflict_rule 600000 20000 (by norm_num) (by norm_num)]
    norm_num
  · rw [claim3_conflict_rule 25000 20000 (by norm_num) (by norm_num)]
    norm_num

/-- Counterexample to claim C3 as stated: at existing Amount `2^62` the
Go expression `existing.Amount*2` wraps to `-2^63`, so the strictly
smaller-than-double new amount `2^62 + 1` still overwrites. -/
theorem claim3_counterexample :
    resolveRecordConflict (2 ^ 62 + 1) (2 ^ 62) = 2 ^ 62 + 1 ∧
    ¬(2 * 2 ^ 62 ≤ ((2 : Int) ^ 62 + 1)) ∧ (0 : Int) < 2 ^ 62 := by
  refine ⟨?_, by norm_num, by norm_num⟩
  unfold resolveRecordConflict int64Wrap
  norm_num

/-- Claim C7: for a candidate with no `rp`/`idr` marker and no separator,
the plausibility filter accepts exactly when the digit string has a
non-zero first digit, length between 2 and 7, and — when the length is at
least 5 — a `000` or `500` suffix. -/
theorem claim7_plausibility_pure (s : String)
    (hrp : containsSub rpL (toLowerL (trimSpace s.data)) = false)
    (hidr : containsSub idrL (toLowerL (trimSpace s.data)) = false)
    (hdot : '.' ∉ trimSpace s.data) (hcom : ',' ∉ trimSpace s.data) :
    isPlausibleAmount s = true ↔
      (2 ≤ (onlyDigits (trimSpace s.data)).length ∧
        (onlyDigits (trimSpace s.data)).length ≤ 7 ∧
        (onlyDigits (trimSpace s.data)).headD '0' ≠ '0' ∧
        (5 ≤ (onlyDigits (trimSpace s.data)).length →
          endsWithL (onlyDigits (trimSpace s.data)) ['0', '0', '0'] = true ∨
            endsWithL (onlyDigits (trimSpace s.data)) ['5', '0', '0'] = true)) := by
  unfold isPlausibleAmount
  dsimp only
  by_cases ht : trimSpace s.data = []
  · rw [if_pos ht, ht]
    simp [onlyDigits]
  · rw [if_neg ht, hrp, hidr]
    simp only [Bool.or_self, Bool.false_eq_true, if_false]
    rw [decide_eq_false hdot, decide_eq_false hcom]
    simp only [Bool.or_self, Bool.false_eq_true, if_false]
    rcases hd : onlyDigits (trimSpace s.data) with _ | ⟨c, rest⟩
    · simp
    · dsimp only
      have hzc : (c.toNat = 48) ↔ (c = '0') := by
        constructor
        · intro h
          exact char_eq_of_toNat_eq c '0' h
        · intro h
          rw [h]
          rfl
      constructor
      · intro h
        by_cases g1 : c.toNat = 48
        · rw [if_pos g1] at h
          exact absurd h (by simp)
        · rw [if_neg g1] at h
          by_cases g2 : 7 < (c :: rest).length
          · rw [if_pos g2] at h
            exact absurd h (by simp)
          · rw [if_neg g2] at h
            by_cases g3 : (decide (5 ≤ (c :: rest).length) &&
                !(endsWithL (c :: rest) ['0', '0', '0'] || endsWithL (c :: rest) ['5', '0', '0'])) = true
            · rw [if_pos g3] at h
              exact absurd h (by simp)
            · rw [if_neg g3] at h
              by_cases g4 : (c :: rest).length < 2
              · rw [if_pos g4] at h
                exact absurd h (by simp)
              · refine ⟨by omega, by omega, fun hc0 => g1 (hzc.mpr hc0), ?_⟩
                intro h5
                by_contra hno
                push_neg at hno
                apply g3
                rw [Bool.eq_false_iff.mpr hno.1, Bool.eq_false_iff.mpr hno.2]
                rw [Bool.and_eq_true]
                exact ⟨decide_eq_true h5, rfl⟩
      · intro hk
        rcases hk with ⟨k1, k2, k3, k4⟩
        have g1 : ¬(c.toNat = 48) := fun hcn => k3 (hzc.mp hcn)
        rw [if_neg g1, if_neg (by omega : ¬(7 < (c :: rest).length))]
        have g3 : ¬((decide (5 ≤ (c :: rest).length) &&
            !(endsWithL (c :: rest) ['0', '0', '0'] || endsWithL (c :: rest) ['5', '0', '0'])) = true) := by
          intro hcon
          rw [Bool.and_eq_true] at hcon
          rcases hcon with ⟨hlen5, hsuf⟩
          rcases k4 (by simpa using hlen5) with hcase | hcase <;> simp [hcase] at hsuf
        rw [if_neg g3, if_neg (by omega : ¬((c :: rest).length < 2))]

/-- Witness for claim C7 at the concrete candidate `"15000"`. -/
theorem claim7_plausibility_pure_witness : isPlausibleAmount "15000" = true :=
  (claim7_plausibility_pure "15000" (by decide) (by decide) (by decide) (by decide)).mpr
    (by decide)

theorem natFromDigitsAux_nil (acc : Nat) : natFromDigitsAux acc [] = acc := rfl

theorem natFromDigitsAux_cons (acc : Nat) (c : Char) (rest : List Char) :
    natFromDigitsAux acc (c :: rest) = natFromDigitsAux (acc * 10 + (c.toNat - 48)) rest := rfl

theorem natFromDigitsAux_eq (l : List Char) : ∀ acc : Nat,
    natFromDigitsAux acc l = acc * 10 ^ l.length + natFromDigits l := by
  induction l with
  | nil =>
    intro acc
    rw [natFromDigitsAux_nil, List.length_nil, pow_zero, Nat.mul_one, natFromDigits,
      natFromDigitsAux_nil]
    omega
  | cons c rest ih =>
    intro acc
    rw [natFromDigitsAux_cons, ih (acc * 10 + (c.toNat - 48))]
    have h2 : natFromDigits (c :: rest) = (c.toNat - 48) * 10 ^ rest.length + natFromDigits rest := by
      rw [natFromDigits, natFromDigitsAux_cons, ih (0 * 10 + (c.toNat - 48))]
      ring_nf
    rw [h2, List.length_cons, Nat.pow_succ]
    ring

theorem natFromDigits_cons (c : Char) (rest : List Char) :
    natFromDigits (c :: rest) = (c.toNat - 48) * 10 ^ rest.length + natFromDigits rest := by
  rw [natFromDigits, natFromDigitsAux_cons, natFromDigitsAux_eq rest]
  ring_nf

theorem natFromDigits_lt (l : List Char) (h : ∀ c ∈ l, isDigitC c = true) :
    natFromDigits l < 10 ^ l.length := by
  induction l with
  | nil =>
    rw [natFromDigits, natFromDigitsAux_nil]
    exact Nat.pos_pow_of_pos _ (by norm_num)
  | cons c rest ih =>
    have hc := h c (List.mem_cons_self _ _)
    have hrest := ih (fun x hx => h x (List.mem_cons_of_mem _ hx))
    rw [natFromDigits_cons, List.length_cons, Nat.pow_succ]
    have hd : c.toNat - 48 ≤ 9 := by
      unfold isDigitC at hc
      rw [Bool.and_eq_true, decide_eq_true_eq, decide_eq_true_eq] at hc
      omega
    calc (c.toNat - 48) * 10 ^ rest.length + natFromDigits rest
        ≤ 9 * 10 ^ rest.length + natFromDigits rest := by
          exact Nat.add_le_add_right (Nat.mul_le_mul_right _ hd) _
      _ < 9 * 10 ^ rest.length + 10 ^ rest.length := Nat.add_lt_add_left hrest _
      _ = 10 ^ rest.length * 10 := by ring

theorem natFromDigits_pos (c : Char) (rest : List Char) (hc : isDigitC c = true)
    (h48 : c.toNat ≠ 48) : 0 < natFromDigits (c :: rest) := by
  rw [natFromDigits_cons]
  unfold isDigitC at hc
  rw [Bool.and_eq_true, decide_eq_true_eq, decide_eq_true_eq] at hc
  have h1 : 1 ≤ c.toNat - 48 := by omega
  have h2 : 0 < 10 ^ rest.length := Nat.pos_pow_of_pos _ (by norm_num)
  have := Nat.mul_le_mul h1 h2
  omega

theorem onlyDigits_all (l : List Char) : ∀ c ∈ onlyDigits l, isDigitC c = true :=
  fun _ hc => List.of_mem_filter hc

theorem parseInt64_some (l : List Char) (h1 : l ≠ [])
    (h2 : ∀ c ∈ l, isDigitC c = true) (h3 : l.length ≤ 18) :
    parseInt64 l = some (natFromDigits l) := by
  unfold parseInt64
  rw [if_neg h1, if_pos (List.all_eq_true.mpr h2)]
  rw [if_pos]
  have hlt := natFromDigits_lt l h2
  have hle : (10 : Nat) ^ l.length ≤ 10 ^ 18 := Nat.pow_le_pow_right (by norm_num) h3
  unfold int64Max
  omega

theorem digit_ne_dot (c : Char) (h : isDigitC c = true) : c ≠ '.' := by
  intro he
  rw [he] at h
  exact absurd h (by decide)

theorem digit_ne_comma (c : Char) (h : isDigitC c = true) : c ≠ ',' := by
  intro he
  rw [he] at h
  exact absurd h (by decide)

theorem centsMatch_decomp (l : List Char) (h : centsMatch l = true) :
    ∃ u sep d1 d2, l = u ++ [sep, d1, d2] ∧ (sep = '.' ∨ sep = ',') ∧
      isDigitC d1 = true ∧ isDigitC d2 = true := by
  unfold centsMatch at h
  rcases hr : l.reverse with _ | ⟨d2, tl1⟩
  · rw [hr] at h
    exact absurd h (by simp)
  · rcases tl1 with _ | ⟨d1, tl2⟩
    · rw [hr] at h
      exact absurd h (by simp)
    · rcases tl2 with _ | ⟨sep, u'⟩
      · rw [hr] at h
        exact absurd h (by simp)
      · rw [hr] at h
        rw [Bool.and_eq_true, Bool.and_eq_true, Bool.or_eq_true] at h
        refine ⟨u'.reverse, sep, d1, d2, ?_, ?_, h.1.2, h.1.1⟩
        · have := congrArg List.reverse hr
          rw [List.reverse_reverse] at this
          rw [this]
          simp
        · rcases h.2 with hs | hs
          · exact Or.inl (by exact of_decide_eq_true hs)
          · exact Or.inr (by exact of_decide_eq_true hs)

theorem lastIdxAux_append (c : Char) (l1 l2 : List Char) : ∀ (i b : Int),
    lastIdxAux c (l1 ++ l2) i b = lastIdxAux c l2 (i + l1.length) (lastIdxAux c l1 i b) := by
  induction l1 with
  | nil => intro i b; simp [lastIdxAux]
  | cons x xs ih =>
    intro i b
    show lastIdxAux c (xs ++ l2) (i + 1) _ = _
    rw [ih (i + 1) (if x = c then i else b)]
    show _ = lastIdxAux c l2 (i + ((xs.length : Int) + 1)) (lastIdxAux c xs (i + 1) (if x = c then i else b))
    have : i + 1 + (xs.length : Int) = i + ((xs.length : Int) + 1) := by ring
    rw [this]

theorem lastIdxAux_lt (c : Char) (l : List Char) : ∀ (i b j : Int),
    b < j → i + l.length ≤ j → lastIdxAux c l i b < j := by
  induction l with
  | nil => intro i b j hb _; exact hb
  | cons x xs ih =>
    intro i b j hb hij
    show lastIdxAux c xs (i + 1) (if x = c then i else b) < j
    apply ih (i + 1) _ j
    · split
      · have : ((x :: xs).length : Int) = (xs.length : Int) + 1 := by simp
        omega
      · exact hb
    · have : ((x :: xs).length : Int) = (xs.length : Int) + 1 := by simp
      omega

theorem lastIdx_append_sep (u : List Char) (sep d1 d2 : Char)
    (hd1 : d1 ≠ sep) (hd2 : d2 ≠ sep) :
    lastIdx (u ++ [sep, d1, d2]) sep = (u.length : Int) := by
  unfold lastIdx
  rw [lastIdxAux_append sep u [sep, d1, d2] 0 (-1)]
  show lastIdxAux sep [d1, d2] (0 + (u.length : Int) + 1)
      (if sep = sep then 0 + (u.length : Int) else _) = _
  rw [if_pos rfl]
  show lastIdxAux sep [d2] _ (if d1 = sep then _ else 0 + (u.length : Int)) = _
  rw [if_neg hd1]
  show (if d2 = sep then _ else 0 + (u.length : Int)) = _
  rw [if_neg hd2]
  ring

theorem lastIdx_append_other (u : List Char) (sep d1 d2 o : Char)
    (hs : sep ≠ o) (hd1 : d1 ≠ o) (hd2 : d2 ≠ o) :
    lastIdx (u ++ [sep, d1, d2]) o < (u.length : Int) := by
  unfold lastIdx
  rw [lastIdxAux_append o u [sep, d1, d2] 0 (-1)]
  show lastIdxAux o [d1, d2] _ (if sep = o then _ else lastIdxAux o u 0 (-1)) < _
  rw [if_neg hs]
  show lastIdxAux o [d2] _ (if d1 = o then _ else lastIdxAux o u 0 (-1)) < _
  rw [if_neg hd1]
  show (if d2 = o then _ else lastIdxAux o u 0 (-1)) < _
  rw [if_neg hd2]
  apply lastIdxAux_lt o u 0 (-1) (u.length : Int)
  · have : (0 : Int) ≤ (u.length : Int) := Int.ofNat_nonneg _
    omega
  · omega

theorem parse_digits_pos (c : Char) (u : List Char) (hall : ∀ x ∈ c :: u, isDigitC x = true)
    (h48 : c.toNat ≠ 48) (hlen : (c :: u).length ≤ 18) :
    ∃ v, parseInt64 (c :: u) = some v ∧ 0 < v :=
  ⟨natFromDigits (c :: u), parseInt64_some _ (by simp) hall hlen,
    natFromDigits_pos c u (hall c (List.mem_cons_self _ _)) h48⟩

/-- Claim C6 (amended): every candidate that passes plausibility, carries
no `rp`/`idr` currency marker and has at most 18 digits parses to a
strictly positive amount. -/
theorem claim6_plausible_parses (s : String) (hp : isPlausibleAmount s = true)
    (hrp : containsSub rpL (toLowerL (trimSpace s.data)) = false)
    (hidr : containsSub idrL (toLowerL (trimSpace s.data)) = false)
    (hlen : (onlyDigits (trimSpace s.data)).length ≤ 18) :
    ∃ v, ParseAmountFromMatch s = some v ∧ 0 < v := by
  unfold isPlausibleAmount at hp
  dsimp only at hp
  by_cases ht : trimSpace s.data = []
  · rw [if_pos ht] at hp
    exact absurd hp (by simp)
  · rw [if_neg ht, hrp, hidr] at hp
    simp only [Bool.or_self, Bool.false_eq_true, if_false] at hp
    by_cases hsep : (decide ('.' ∈ trimSpace s.data) || decide (',' ∈ trimSpace s.data)) = true
    · rw [if_pos hsep] at hp
      rcases hdig : onlyDigits (trimSpace s.data) with _ | ⟨c, rest⟩
      · rw [hdig] at hp
        exact absurd hp (by simp)
      · rw [hdig] at hp
        dsimp only at hp
        rw [Bool.and_eq_true, decide_eq_true_eq, decide_eq_true_eq] at hp
        obtain ⟨h3, h48⟩ := hp
        by_cases hcm : centsMatch (trimSpace s.data) = true
        · obtain ⟨u, sep, d1, d2, hteq, hseps, hd1, hd2⟩ :=
            centsMatch_decomp (trimSpace s.data) hcm
          have hsep_nd : isDigitC sep = false := by
            rcases hseps with h | h <;> rw [h] <;> decide
          have hod : onlyDigits (trimSpace s.data) = onlyDigits u ++ [d1, d2] := by
            rw [hteq]
            unfold onlyDigits
            rw [List.filter_append]
            congr 1
            simp [List.filter, hsep_nd, hd1, hd2]
          rcases hu : onlyDigits u with _ | ⟨c0, u'⟩
          · rw [hu, hdig] at hod
            have h2 : (c :: rest).length = 2 := by rw [hod]; rfl
            omega
          · rw [hu, hdig] at hod
            have hc0 : c = c0 ∧ rest = u' ++ [d1, d2] := by
              have := List.cons.injEq c rest c0 (u' ++ [d1, d2]) ▸ hod
              exact this
            have hall : ∀ x ∈ c0 :: u', isDigitC x = true := by
              rw [← hu]
              exact onlyDigits_all u
            have h48' : c0.toNat ≠ 48 := hc0.1 ▸ h48
            have hlen' : (c0 :: u').length ≤ 18 := by
              have hr : rest.length = u'.length + 2 := by rw [hc0.2]; simp
              rw [hdig] at hlen
              simp only [List.length_cons] at hlen ⊢
              omega
            obtain ⟨v, hv, hvpos⟩ := parse_digits_pos c0 u' hall h48' hlen'
            refine ⟨v, ?_, hvpos⟩
            unfold ParseAmountFromMatch
            dsimp only
            rw [if_neg ht, if_pos hcm, hteq]
            rcases hseps with hdot | hcomma
            · subst hdot
              rw [lastIdx_append_sep u '.' d1 d2 (digit_ne_dot d1 hd1) (digit_ne_dot d2 hd2)]
              have hlc : lastIdx (u ++ ['.', d1, d2]) ',' < (u.length : Int) :=
                lastIdx_append_other u '.' d1 d2 ',' (by decide)
                  (digit_ne_comma d1 hd1) (digit_ne_comma d2 hd2)
              rw [if_neg (by omega : ¬((u.length : Int) < lastIdx (u ++ ['.', d1, d2]) ','))]
              rw [if_pos hlc, Int.toNat_ofNat, List.take_left, hu]
              rw [if_neg (by simp)]
              exact hv
            · subst hcomma
              rw [lastIdx_append_sep u ',' d1 d2 (digit_ne_comma d1 hd1) (digit_ne_comma d2 hd2)]
              have hld : lastIdx (u ++ [',', d1, d2]) '.' < (u.length : Int) :=
                lastIdx_append_other u ',' d1 d2 '.' (by decide)
                  (digit_ne_dot d1 hd1) (digit_ne_dot d2 hd2)
              rw [if_pos hld, Int.toNat_ofNat, List.take_left, hu]
              rw [if_neg (by simp)]
              exact hv
        · have hall : ∀ x ∈ c :: rest, isDigitC x = true := by
            rw [← hdig]
            exact onlyDigits_all (trimSpace s.data)
          rw [hdig] at hlen
          obtain ⟨v, hv, hvpos⟩ := parse_digits_pos c rest hall h48 hlen
          refine ⟨v, ?_, hvpos⟩
          unfold ParseAmountFromMatch
          dsimp only
          rw [if_neg ht, if_neg hcm, hdig]
          rw [if_neg (by simp)]
          exact hv
    · rw [if_neg hsep] at hp
      rcases hdig : onlyDigits (trimSpace s.data) with _ | ⟨c, rest⟩
      · rw [hdig] at hp
        exact absurd hp (by simp)
      · rw [hdig] at hp
        dsimp only at hp
        have h48 : ¬(c.toNat = 48) := by
          intro hc
          rw [if_pos hc] at hp
          exact absurd hp (by simp)
        rw [if_neg h48] at hp
        have hcm : ¬(centsMatch (trimSpace s.data) = true) := by
          intro hcc
          obtain ⟨u, sep, d1, d2, hteq, hseps, _, _⟩ :=
            centsMatch_decomp (trimSpace s.data) hcc
          apply hsep
          rw [Bool.or_eq_true]
          rcases hseps with h | h
          · left
            rw [decide_eq_true_eq, hteq, h]
            exact List.mem_append_right _ (List.mem_cons_self _ _)
          · right
            rw [decide_eq_true_eq, hteq, h]
            exact List.mem_append_right _ (List.mem_cons_self _ _)
        have hall : ∀ x ∈ c :: rest, isDigitC x = true := by
          rw [← hdig]
          exact onlyDigits_all (trimSpace s.data)
        rw [hdig] at hlen
        obtain ⟨v, hv, hvpos⟩ := parse_digits_pos c rest hall h48 hlen
        refine ⟨v, ?_, hvpos⟩
        unfold ParseAmountFromMatch
        dsimp only
        rw [if_neg ht, if_neg hcm, hdig]
        rw [if_neg (by simp)]
        exact hv

/-- Witness for claim C6 at the concrete candidate `"7.500"`. -/
theorem claim6_plausible_parses_witness :
    ∃ v, ParseAmountFromMatch "7.500" = some v ∧ 0 < v :=
  claim6_plausible_parses "7.500" (by decide) (by decide) (by decide) (by decide)

/-- Counterexample to claim C6 as stated: `"rp"` passes plausibility via
its currency marker but contains no digit, so parsing fails; and a
20-digit separator-bearing candidate passes plausibility but overflows
the int64 parse. -/
theorem claim6_counterexample :
    isPlausibleAmount "rp" = true ∧ ParseAmountFromMatch "rp" = none ∧
    isPlausibleAmount "12345678901234567890," = true ∧
    ParseAmountFromMatch "12345678901234567890," = none := by
  decide

/-- The synthesized amount of one zero-block match. -/
def synthAmt (m : Char × List Char) : Nat := natFromDigits (synthDigits m)

theorem leadsWith_append (p q : List Char) : leadsWith p (p ++ q) = true := by
  induction p with
  | nil => rfl
  | cons x xs ih => simp [leadsWith, ih]

theorem tryLead_lead (l : List Char) (lead : Char) (tail rem : List Char)
    (h : tryLead l = some (lead, tail, rem)) : leadDigit lead = true := by
  rcases l with _ | ⟨c, rest⟩
  · exact absurd h (by simp [tryLead])
  · unfold tryLead at h
    dsimp only at h
    by_cases hc : leadDigit c = true
    · rw [if_pos hc] at h
      rcases Option.map_eq_some'.mp h with ⟨p, _, hp2⟩
      cases hp2
      exact hc
    · rw [if_neg hc] at h
      exact absurd h (by simp)

theorem tryHere_lead (l : List Char) (st : Bool) (lead : Char) (tail rem : List Char)
    (h : tryHere l st = some (lead, tail, rem)) : leadDigit lead = true := by
  unfold tryHere at h
  rcases hv : (if st = true then tryLead l else none) with _ | r
  · rw [hv] at h
    rcases l with _ | ⟨sp, rest⟩
    · exact absurd h (by simp)
    · dsimp only at h
      by_cases hsp : isSpaceGo sp = true
      · rw [if_pos hsp] at h
        exact tryLead_lead rest lead tail rem h
      · rw [if_neg hsp] at h
        exact absurd h (by simp)
  · rw [hv] at h
    dsimp only at h
    cases h
    by_cases hst : st = true
    · rw [if_pos hst] at hv
      exact tryLead_lead l lead tail rem hv
    · rw [if_neg hst] at hv
      exact absurd hv (by simp)

theorem scanText_lead (fuel : Nat) : ∀ (l : List Char) (st : Bool),
    ∀ m ∈ scanText fuel l st, leadDigit m.1 = true := by
  induction fuel with
  | zero =>
    intro l st m hm
    exact absurd hm (by simp [scanText])
  | succ fuel ih =>
    intro l st m hm
    unfold scanText at hm
    rcases hv : tryHere l st with _ | ⟨lead, tail, rem⟩
    · rw [hv] at hm
      rcases l with _ | ⟨x, rest⟩
      · exact absurd hm (by simp)
      · exact ih rest false m hm
    · rw [hv] at hm
      dsimp only at hm
      rcases List.mem_cons.mp hm with h1 | h1
      · rw [h1]
        exact tryHere_lead l st lead tail rem hv
      · exact ih rem false m h1


theorem leadDigit_isDigit (c : Char) (h : leadDigit c = true) : isDigitC c = true := by
  unfold leadDigit at h
  rw [Bool.and_eq_true, decide_eq_true_eq, decide_eq_true_eq] at h
  unfold isDigitC
  rw [Bool.and_eq_true]
  exact ⟨decide_eq_true (by omega), decide_eq_true (by omega)⟩

theorem leadDigit_ne48 (c : Char) (h : leadDigit c = true) : c.toNat ≠ 48 := by
  unfold leadDigit at h
  rw [Bool.and_eq_true, decide_eq_true_eq, decide_eq_true_eq] at h
  omega

theorem synthDigits_all (m : Char × List Char) (hlead : leadDigit m.1 = true) :
    ∀ x ∈ synthDigits m, isDigitC x = true := by
  intro x hx
  unfold synthDigits at hx
  rcases List.mem_cons.mp hx with h | h
  · rw [h]
    exact leadDigit_isDigit m.1 hlead
  · rw [List.eq_of_mem_replicate h]
    decide

theorem synthAmt_pos (m : Char × List Char) (hlead : leadDigit m.1 = true) :
    0 < synthAmt m :=
  natFromDigits_pos m.1 _ (leadDigit_isDigit m.1 hlead) (leadDigit_ne48 m.1 hlead)

theorem parse_synth (m : Char × List Char) (hlead : leadDigit m.1 = true) :
    parseInt64 (synthDigits m) = some (synthAmt m) := by
  apply parseInt64_some
  · simp [synthDigits]
  · exact synthDigits_all m hlead
  · unfold synthDigits
    simp only [List.length_cons, List.length_replicate]
    split <;> omega

theorem endsWith_append (l suf : List Char) : endsWithL (l ++ suf) suf = true := by
  unfold endsWithL
  rw [List.reverse_append]
  exact leadsWith_append _ _

theorem endsWith_synth (m : Char × List Char) (hq : 4 ≤ zeroCount m.2) :
    endsWithL (synthDigits m) ['0', '0', '0'] = true := by
  unfold synthDigits
  have hz : (if 6 < zeroCount m.2 then 6 else zeroCount m.2) =
      ((if 6 < zeroCount m.2 then 6 else zeroCount m.2) - 3) + 3 := by
    split <;> omega
  rw [hz, List.replicate_add, ← List.cons_append]
  exact endsWith_append _ _

theorem standaloneStep_eq (b : Nat × String) (m : Char × List Char)
    (hlead : leadDigit m.1 = true) :
    standaloneStep b m =
      if 4 ≤ zeroCount m.2 then
        (if b.1 < synthAmt m then (synthAmt m, synthRaw m) else b)
      else b := by
  unfold standaloneStep
  by_cases hq : zeroCount m.2 < 4
  · rw [if_pos hq, if_neg (by omega)]
  · rw [if_neg hq, if_pos (by omega)]
    rw [parse_synth m hlead]
    dsimp only
    rw [if_neg (by have := synthAmt_pos m hlead; omega)]
    rw [endsWith_synth m (by omega)]
    rw [if_neg (by decide : ¬((!true) = true))]

theorem standalone_fold (ms : List (Char × List Char)) : ∀ b : Nat × String,
    (∀ m ∈ ms, leadDigit m.1 = true) →
    b.1 ≤ (ms.foldl standaloneStep b).1 ∧
    ((ms.foldl standaloneStep b).1 = b.1 ∨
      ∃ m ∈ ms, 4 ≤ zeroCount m.2 ∧ (ms.foldl standaloneStep b).1 = synthAmt m) ∧
    (∀ m ∈ ms, 4 ≤ zeroCount m.2 → synthAmt m ≤ (ms.foldl standaloneStep b).1) := by
  induction ms with
  | nil =>
    intro b _
    exact ⟨le_refl _, Or.inl rfl, by simp⟩
  | cons m ms ih =>
    intro b hlead
    have hm := hlead m (List.mem_cons_self _ _)
    have hstep := standaloneStep_eq b m hm
    obtain ⟨ih1, ih2, ih3⟩ := ih (standaloneStep b m)
      (fun x hx => hlead x (List.mem_cons_of_mem _ hx))
    have hb1 : b.1 ≤ (standaloneStep b m).1 := by
      rw [hstep]
      split
      · split
        · dsimp only
          omega
        · exact le_refl _
      · exact le_refl _
    have hb2 : (standaloneStep b m).1 = b.1 ∨
        (4 ≤ zeroCount m.2 ∧ (standaloneStep b m).1 = synthAmt m) := by
      rw [hstep]
      split
      · split
        · right
          exact ⟨by assumption, rfl⟩
        · left
          rfl
      · left
        rfl
    have hb3 : 4 ≤ zeroCount m.2 → synthAmt m ≤ (standaloneStep b m).1 := by
      intro hq
      rw [hstep, if_pos hq]
      split
      · exact le_refl _
      · omega
    rw [List.foldl_cons]
    refine ⟨le_trans hb1 ih1, ?_, ?_⟩
    · rcases ih2 with h | ⟨m', hm', hq', he'⟩
      · rcases hb2 with h2 | ⟨hq2, he2⟩
        · left
          rw [h, h2]
        · right
          exact ⟨m, List.mem_cons_self _ _, hq2, by rw [h, he2]⟩
      · right
        exact ⟨m', List.mem_cons_of_mem _ hm', hq', he'⟩
    · intro m' hm' hq'
      rcases List.mem_cons.mp hm' with h | h
      · rw [h]
        exact le_trans (hb3 (h ▸ hq')) ih1
      · exact ih3 m' h hq'

/-- Claim C9 (amended): when `inferStandaloneZeroAmount` reports a
positive amount, that amount is the synthesized value of one of the
regex matches having at least four zeros in its tail, its digit string
ends in `000`, and it is the LARGEST such synthesized amount — not the
amount of the longest match as claimed. -/
theorem claim9_standalone_largest (text : String) (a : Nat) (raw : String)
    (h : inferStandaloneZeroAmount text = (a, raw)) (ha : 0 < a) :
    ∃ m ∈ standaloneMatches text, 4 ≤ zeroCount m.2 ∧ a = synthAmt m ∧
      endsWithL (synthDigits m) ['0', '0', '0'] = true ∧
      ∀ m' ∈ standaloneMatches text, 4 ≤ zeroCount m'.2 → synthAmt m' ≤ a := by
  have hlead : ∀ m ∈ standaloneMatches text, leadDigit m.1 = true := by
    intro m hm
    unfold standaloneMatches at hm
    exact scanText_lead _ _ _ m hm
  obtain ⟨h1, h2, h3⟩ := standalone_fold (standaloneMatches text) (0, "") hlead
  unfold inferStandaloneZeroAmount at h
  dsimp only at h
  by_cases hr : 0 < ((standaloneMatches text).foldl standaloneStep (0, "")).1
  · rw [if_pos hr] at h
    rcases h2 with hz | ⟨m, hm, hq, he⟩
    · rw [h] at hz
      exact absurd hz (by omega)
    · rw [h] at he h3
      refine ⟨m, hm, hq, he, endsWith_synth m hq, ?_⟩
      intro m' hm' hq'
      exact h3 m' hm' hq'
  · rw [if_neg hr] at h
    have : (0 : Nat) = a := congrArg Prod.fst h
    omega

/-- Witness for claim C9 at the text `"a 90000iill x 1000000 b"`. -/
theorem claim9_standalone_largest_witness :
    ∃ m ∈ standaloneMatches "a 90000iill x 1000000 b",
      4 ≤ zeroCount m.2 ∧ 1000000 = synthAmt m ∧
      endsWithL (synthDigits m) ['0', '0', '0'] = true ∧
      ∀ m' ∈ standaloneMatches "a 90000iill x 1000000 b",
        4 ≤ zeroCount m'.2 → synthAmt m' ≤ 1000000 :=
  claim9_standalone_largest "a 90000iill x 1000000 b" 1000000 "Rp1.000.000?"
    (by decide) (by decide)

/-- Counterexample to claim C9 as stated: in
`"a 90000iill x 1000000 b"` the longest match is the first one (captured
tail `0000iill`, 8 characters, full span 11 characters) synthesizing
90000, while the second match (tail `000000`, 6 characters, span 9)
synthesizes 1000000; the function returns 1000000 — the largest
synthesized amount, not the one arising from the longest match. -/
theorem claim9_counterexample :
    inferStandaloneZeroAmount "a 90000iill x 1000000 b" = (1000000, "Rp1.000.000?") ∧
    standaloneMatches "a 90000iill x 1000000 b" =
      [('9', ['0', '0', '0', '0', 'i', 'i', 'l', 'l']), ('1', ['0', '0', '0', '0', '0', '0'])] ∧
    synthAmt ('9', ['0', '0', '0', '0', 'i', 'i', 'l', 'l']) = 90000 ∧
    synthAmt ('1', ['0', '0', '0', '0', '0', '0']) = 1000000 ∧
    (['0', '0', '0', '0', 'i', 'i', 'l', 'l'] : List Char).length = 8 ∧
    (['0', '0', '0', '0', '0', '0'] : List Char).length = 6 := by
  decide

theorem fillContentType_fields (env : ProcEnv) (u0 : Upload) :
    (fillContentType env u0).failed = u0.failed ∧
    (fillContentType env u0).failedReason = u0.failedReason ∧
    (fillContentType env u0).keuanganId = u0.keuanganId := by
  unfold fillContentType
  split <;> exact ⟨rfl, rfl, rfl⟩

theorem afterAmount_cases (env : ProcEnv) (u1 : Upload) (amt : Nat) :
    (afterAmount env u1 amt).upload = some u1 ∧
    ((afterAmount env u1 amt).outcome = Outcome.skipRecheck ∨
      (afterAmount env u1 amt).outcome = Outcome.noAmount ∨
      (afterAmount env u1 amt).outcome = Outcome.skipUnknownOwner) := by
  unfold afterAmount
  split
  · exact ⟨rfl, Or.inl rfl⟩
  · split
    · exact ⟨rfl, Or.inr (Or.inl rfl)⟩
    · dsimp only
      rw [if_pos (show ownerLoop 3 (some u1) env.raceFetch env.ownerOf = 0 from rfl)]
      exact ⟨rfl, Or.inr (Or.inr rfl)⟩

theorem afterObtain_cases (env : ProcEnv) (u0 : Upload) :
    (∃ reason, (reason = reasonNotRecognized ∨ reason = reasonNoAmount) ∧
      afterObtain env u0 =
        ⟨some { fillContentType env u0 with failed := true, failedReason := reason },
          FileDest.failedDir, Outcome.markedFailed reason, none⟩) ∨
    ((afterObtain env u0).upload = some (fillContentType env u0) ∧
      ((afterObtain env u0).outcome = Outcome.ocrError ∨
        (afterObtain env u0).outcome = Outcome.skipRecheck ∨
        (afterObtain env u0).outcome = Outcome.noAmount ∨
        (afterObtain env u0).outcome = Outcome.skipUnknownOwner)) := by
  unfold afterObtain
  dsimp only
  rcases henv : env.ocr with _ | ⟨ms, fl⟩
  · exact Or.inr ⟨rfl, Or.inl rfl⟩
  · dsimp only
    split
    · left
      refine ⟨if fl = true then reasonNotRecognized else reasonNoAmount, ?_, ?_⟩
      · cases fl
        · exact Or.inr rfl
        · exact Or.inl rfl
      · rfl
    · split
      · rcases afterAmount_cases env (fillContentType env u0) (chooseBestAmount ms).1 with ⟨ha, hb⟩
        exact Or.inr ⟨ha, Or.inr hb⟩
      · rcases hfi : env.fullImage with _ | f
        · exact Or.inl ⟨reasonNoAmount, Or.inr rfl, rfl⟩
        · dsimp only
          split
          · rcases afterAmount_cases env (fillContentType env u0) f with ⟨ha, hb⟩
            exact Or.inr ⟨ha, Or.inr hb⟩
          · exact Or.inl ⟨reasonNoAmount, Or.inr rfl, rfl⟩

/-- All possible results of one `processSingleFile` step: the upload is
untouched (skip and error paths), or the Upload obtained at entry has its
content type filled and is either marked failed with one of the two
reason strings or left with its failure fields unchanged. -/
theorem processSingleFile_cases (env : ProcEnv) :
    (processSingleFile env = ⟨env.uploadFound, FileDest.keu, Outcome.skipRecorded, none⟩) ∨
    (∃ u0, entryUpload env = some u0 ∧
      processSingleFile env = ⟨some u0, FileDest.keu, Outcome.skipLinked, none⟩) ∨
    (processSingleFile env = ⟨none, FileDest.processed, Outcome.skipAdminCreate, none⟩) ∨
    (processSingleFile env = ⟨none, FileDest.keu, Outcome.createError, none⟩) ∨
    (∃ u0, entryUpload env = some u0 ∧
      ((∃ reason, (reason = reasonNotRecognized ∨ reason = reasonNoAmount) ∧
        processSingleFile env =
          ⟨some { fillContentType env u0 with failed := true, failedReason := reason },
            FileDest.failedDir, Outcome.markedFailed reason, none⟩) ∨
      ((processSingleFile env).upload = some (fillContentType env u0) ∧
        ((processSingleFile env).outcome = Outcome.ocrError ∨
          (processSingleFile env).outcome = Outcome.skipRecheck ∨
          (processSingleFile env).outcome = Outcome.noAmount ∨
          (processSingleFile env).outcome = Outcome.skipUnknownOwner)))) := by
  unfold processSingleFile
  split
  · exact Or.inl rfl
  · rcases hup : env.uploadFound with _ | u0
    · dsimp only
      split
      · exact Or.inr (Or.inr (Or.inl rfl))
      · rcases hcr : env.created with _ | u0
        · exact Or.inr (Or.inr (Or.inr (Or.inl rfl)))
        · dsimp only
          refine Or.inr (Or.inr (Or.inr (Or.inr ⟨u0, ?_, afterObtain_cases env u0⟩)))
          unfold entryUpload
          rw [hup]
          dsimp only
          rw [if_neg (by assumption), hcr]
    · dsimp only
      split
      · exact Or.inr (Or.inl ⟨u0, by unfold entryUpload; rw [hup], rfl⟩)
      · refine Or.inr (Or.inr (Or.inr (Or.inr ⟨u0, ?_, afterObtain_cases env u0⟩)))
        unfold entryUpload
        rw [hup]

/-- Claim C1 (amended): when the candidate list is non-empty,
`chooseBestAmount` selects nothing and the full-image fallback is
inconclusive — it errors (`none`) or returns without error but finds
nothing (`some 0`, the `(0, nil)` return of `ExtractAmountFromImage`
when no pattern matches) — the Upload is marked Failed with FailedReason
exactly `"Nominal tidak ditemukan, gunakan file lain"` — not
`"Gagal! Gunakan file lain"`, a string that occurs nowhere in the code —
and the file is moved to public/failed/. -/
theorem claim1_ambiguous_failure (env : ProcEnv) (u0 : Upload) (ms : List String)
    (flag : Bool) (hreach : reachesOCR env u0) (hocr : env.ocr = some (ms, flag))
    (hne : ms ≠ []) (hzero : (chooseBestAmount ms).1 = 0)
    (hfb : env.fullImage = none ∨ env.fullImage = some 0) :
    (processSingleFile env).dest = FileDest.failedDir ∧
    (processSingleFile env).outcome = Outcome.markedFailed reasonNoAmount ∧
    ∃ u, (processSingleFile env).upload = some u ∧ u.failed = true ∧
      u.failedReason = reasonNoAmount := by
  obtain ⟨hcat, hcase⟩ := hreach
  have hobt : processSingleFile env = afterObtain env u0 := by
    unfold processSingleFile
    rw [if_neg (by rw [hcat]; exact Bool.false_ne_true)]
    rcases hcase with ⟨hf, hk⟩ | ⟨hnf, hp1, hc⟩
    · rw [hf]
      dsimp only
      rw [if_neg (fun hx => hx hk)]
    · rw [hnf]
      dsimp only
      rw [if_neg hp1, hc]
  rw [hobt]
  unfold afterObtain
  dsimp only
  rw [hocr]
  dsimp only
  rw [if_neg hne, if_neg (by omega)]
  rcases hfb with hfb | hfb
  · rw [hfb]
    exact ⟨rfl, rfl, _, rfl, rfl, rfl⟩
  · rw [hfb]
    dsimp only
    rw [if_neg (by omega : ¬(0 < 0))]
    exact ⟨rfl, rfl, _, rfl, rfl, rfl⟩

/-- Witness for claim C1: a fresh Upload whose only OCR candidate `"500"`
is rejected by every pass (below the 1000 floor) and whose full-image
fallback returns without error but finds no amount (the `some 0` case). -/
theorem claim1_ambiguous_failure_witness :
    (processSingleFile (mkEnv (some (["500"], false)) (some 0))).dest = FileDest.failedDir ∧
    (processSingleFile (mkEnv (some (["500"], false)) (some 0))).outcome =
      Outcome.markedFailed reasonNoAmount ∧
    ∃ u, (processSingleFile (mkEnv (some (["500"], false)) (some 0))).upload = some u ∧
      u.failed = true ∧ u.failedReason = reasonNoAmount :=
  claim1_ambiguous_failure (mkEnv (some (["500"], false)) (some 0)) freshUpload ["500"] false
    ⟨rfl, Or.inl ⟨rfl, rfl⟩⟩ rfl (by simp) (by decide) (Or.inr rfl)

/-- Counterexample to claim C1 as stated: on the cited candidate list
`["1234567", "9876543"]` the scorer is not undecided — the final pass
picks the numerically largest value 9876543, so the run does not take the
failure branch at all (the file moves to processed and the Upload stays
unfailed); and when the failure branch is taken (candidates `["500"]`,
fallback inconclusive), the reason written is
`"Nominal tidak ditemukan, gunakan file lain"`, never
`"Gagal! Gunakan file lain"`. -/
theorem claim1_counterexample :
    chooseBestAmount ["1234567", "9876543"] = (9876543, "9876543") ∧
    processSingleFile (mkEnv (some (["1234567", "9876543"], false)) none) =
      ⟨some freshUpload, FileDest.processed, Outcome.skipUnknownOwner, none⟩ ∧
    freshUpload.failed = false ∧ freshUpload.failedReason = "" ∧
    processSingleFile (mkEnv (some (["500"], false)) none) =
      ⟨some { freshUpload with failed := true, failedReason := reasonNoAmount },
        FileDest.failedDir, Outcome.markedFailed reasonNoAmount, none⟩ ∧
    reasonNoAmount ≠ "Gagal! Gunakan file lain" := by
  decide

/-- Claim C2 (amended): after one `processSingleFile` step, a
failure-marking outcome establishes Failed = true, a non-empty
FailedReason and a null record link (provided the Upload reaching OCR was
unlinked); the success-linking outcome never occurs, because the
owner-resolution loop guard `i < 3 && up == nil` is false once an Upload
is in hand; and every other outcome leaves Failed, FailedReason and
KeuanganID exactly as they entered. -/
theorem claim2_failure_state (env : ProcEnv) :
    (∀ reason u, (processSingleFile env).outcome = Outcome.markedFailed reason →
      (processSingleFile env).upload = some u →
      u.failed = true ∧ u.failedReason = reason ∧ reason ≠ "" ∧
      (∀ u0, entryUpload env = some u0 → u0.keuanganId = none → u.keuanganId = none)) ∧
    (∀ a i, (processSingleFile env).outcome ≠ Outcome.success a i) ∧
    (∀ u, (processSingleFile env).upload = some u →
      (∀ reason, (processSingleFile env).outcome ≠ Outcome.markedFailed reason) →
      ∃ u0, entryUpload env = some u0 ∧ u.failed = u0.failed ∧
        u.failedReason = u0.failedReason ∧ u.keuanganId = u0.keuanganId) := by
  rcases processSingleFile_cases env with h | ⟨u0, he, h⟩ | h | h | ⟨u0, he, hfail | hok⟩
  · refine ⟨?_, ?_, ?_⟩
    · intro reason u hout _
      rw [h] at hout
      exact absurd hout (by simp)
    · intro a i hout
      rw [h] at hout
      exact absurd hout (by simp)
    · intro u hu _
      rw [h] at hu
      dsimp only at hu
      exact ⟨u, by unfold entryUpload; rw [hu], rfl, rfl, rfl⟩
  · refine ⟨?_, ?_, ?_⟩
    · intro reason u hout _
      rw [h] at hout
      exact absurd hout (by simp)
    · intro a i hout
      rw [h] at hout
      exact absurd hout (by simp)
    · intro u hu _
      rw [h] at hu
      dsimp only at hu
      cases hu
      exact ⟨u0, he, rfl, rfl, rfl⟩
  · refine ⟨?_, ?_, ?_⟩
    · intro reason u hout _
      rw [h] at hout
      exact absurd hout (by simp)
    · intro a i hout
      rw [h] at hout
      exact absurd hout (by simp)
    · intro u hu _
      rw [h] at hu
      exact absurd hu (by simp)
  · refine ⟨?_, ?_, ?_⟩
    · intro reason u hout _
      rw [h] at hout
      exact absurd hout (by simp)
    · intro a i hout
      rw [h] at hout
      exact absurd hout (by simp)
    · intro u hu _
      rw [h] at hu
      exact absurd hu (by simp)
  · obtain ⟨rr, hrr, heq⟩ := hfail
    refine ⟨?_, ?_, ?_⟩
    · intro reason u hout hu
      rw [heq] at hout hu
      dsimp only at hout hu
      cases hu
      injection hout with hr
      subst hr
      refine ⟨rfl, rfl, ?_, ?_⟩
      · rcases hrr with h' | h' <;> (subst h'; decide)
      · intro u0' he' hk
        rw [he] at he'
        injection he' with he''
        subst he''
        show (fillContentType env u0).keuanganId = none
        rw [(fillContentType_fields env u0).2.2]
        exact hk
    · intro a i hout
      rw [heq] at hout
      exact absurd hout (by simp)
    · intro u hu hnot
      exfalso
      exact hnot rr (by rw [heq])
  · obtain ⟨hu1, houts⟩ := hok
    refine ⟨?_, ?_, ?_⟩
    · intro reason u hout _
      rcases houts with h' | h' | h' | h' <;> (rw [h'] at hout; exact absurd hout (by simp))
    · intro a i hout
      rcases houts with h' | h' | h' | h' <;> (rw [h'] at hout; exact absurd hout (by simp))
    · intro u hu _
      rw [hu1] at hu
      injection hu with hu'
      refine ⟨u0, he, ?_, ?_, ?_⟩ <;> rw [← hu']
      · exact (fillContentType_fields env u0).1
      · exact (fillContentType_fields env u0).2.1
      · exact (fillContentType_fields env u0).2.2

/-- Witness for claim C2: the failure-marking clause applied to a fresh
Upload whose OCR yields no matches on a logo-like image. -/
theorem claim2_failure_state_witness :
    ({ freshUpload with failed := true, failedReason := reasonNotRecognized } : Upload).failed = true ∧
    ({ freshUpload with failed := true, failedReason := reasonNotRecognized } : Upload).failedReason = reasonNotRecognized ∧
    reasonNotRecognized ≠ "" ∧
    (∀ u0, entryUpload (mkEnv (some ([], true)) none) = some u0 → u0.keuanganId = none →
      ({ freshUpload with failed := true, failedReason := reasonNotRecognized } : Upload).keuanganId = none) :=
  (claim2_failure_state (mkEnv (some ([], true)) none)).1 reasonNotRecognized
    { freshUpload with failed := true, failedReason := reasonNotRecognized }
    (by decide) (by decide)

/-- Counterexample to claim C2 as stated: a fresh unfailed Upload whose
OCR succeeds (candidate `"Rp50.000"`, amount 50000) completes the step
with FailedReason still empty and KeuanganID still null — the
owner-resolution loop never runs, no Record is linked, and the claimed
equivalence `FailedReason non-empty iff RecordId null` is false for the
resulting state. -/
theorem claim2_counterexample :
    processSingleFile (mkEnv (some (["Rp50.000"], false)) none) =
      ⟨some freshUpload, FileDest.processed, Outcome.skipUnknownOwner, none⟩ ∧
    freshUpload.failed = false ∧ freshUpload.failedReason = "" ∧
    freshUpload.keuanganId = none ∧
    ¬((freshUpload.failedReason ≠ "") ↔ freshUpload.keuanganId = none) := by
  refine ⟨by decide, rfl, rfl, rfl, ?_⟩
  intro hiff
  exact (hiff.mpr rfl) rfl

end Fekeu
